import Mathlib

/-!
Verification of the `simplypipe` lazy pipeline library.

The Python source (`simplypipe/core/pipe.py`) builds a chain of generator
transducers over a source iterable; `run()` composes them over a counting
wrapper of the source and drives the composed generator to exhaustion,
collecting `RunStats`.

We embed the library shallowly:

* Python items are untyped; we model them with the closed value domain `Val`
  (integers and lists of values, lists arising from `batch`).
* Each operator is a generator.  A generator only executes while its consumer
  pulls it, so we evaluate every operator under an explicit pull *budget*:
  `some k` means the consumer will pull at most `k` more times (the generator
  freezes at the yield that exhausts the budget), `none` means the consumer
  pulls to exhaustion.  This makes the lazy-pull behavior (e.g. how many
  source items `take` causes to be consumed) exact.
* All ten operators of the source are instances of one generic runner
  `genRun`, each given by a `step` function that is a direct transliteration
  of the corresponding Python loop body, plus an end-of-input `flush` action
  (only `batch` uses it).
* The chain evaluator `evalRev` mirrors `Pipe.run`: the counting source at the
  bottom, operators folded over it in registration order.  The pull budget an
  operator places on its upstream is the number of items it consumed plus one
  if it attempted a further pull (the pull that discovers exhaustion, which
  can make the upstream do real work such as flushing a partial batch).
* Wall-clock time is threaded as an explicit parameter `t`; `duration` is the
  only statistics field that depends on it.  `rate_limit` sleeps and retry
  backoff delay only the run, so they are invisible in this model.
* Exceptions are modeled by `Err` codes; user functions that can raise return
  `Except Err Val`, and a raising generator aborts the run (`runWith` returns
  `Except.error`), so no statistics record is produced on that path, exactly
  as in the source.
-/

namespace SimplyPipe

/-- Python run-time values flowing through a pipeline: integers and lists
(lists are produced by `batch`). -/
inductive Val where
  | int (n : Int)
  | list (xs : List Val)

/-- Structural equality on values, mirroring Python `==`/hashing as used by
`dedupe`'s seen-set membership test. -/
def Val.beq : Val → Val → Bool
  | .int a, .int b => a == b
  | .list as, .list bs => listBeq as bs
  | _, _ => false
where listBeq : List Val → List Val → Bool
  | [], [] => true
  | a :: as, b :: bs => Val.beq a b && listBeq as bs
  | _, _ => false

instance : BEq Val := ⟨Val.beq⟩

/-- Exception values (Python exception objects are opaque to the pipeline;
operators only test membership in a declared `exceptions` tuple, which we
model as a Boolean predicate on `Err`). -/
abbrev Err := Nat

/-- Pull budget of a generator: `some k` = the consumer will pull at most `k`
more times; `none` = the consumer pulls to exhaustion. -/
abbrev Budget := Option Nat

/-- A generator with budget `some 0` is frozen: its consumer will never pull
it again, so none of its code runs. -/
def bFrozen : Budget → Bool
  | some 0 => true
  | _ => false

/-- Spend `m` pulls of the budget. -/
def bSub : Budget → Nat → Budget
  | none, _ => none
  | some k, m => some (k - m)

/-- The portion of a list of pending outputs actually delivered under a
budget. -/
def takeB : Budget → List Val → List Val
  | none, l => l
  | some k, l => l.take k

/-- Number of items delivered from `n` available under a budget. -/
def minB : Budget → Nat → Nat
  | none, n => n
  | some k, n => min k n

/-- Result of running one operator generator over its (potential) input:
the outputs it yielded, how many input items it consumed, whether it
attempted one further pull past the consumed items (the pull that discovers
exhaustion or receives an upstream exception), the statistics deltas it
performed, and the exception it raised, if any. -/
structure OpRes where
  out : List Val
  consumed : Nat
  extraPull : Bool
  dropped : Nat
  batches : Nat
  errors : Nat
  err : Option Err

/-- What one iteration of an operator's loop body does with one input item:
yield a (possibly empty) list of outputs and continue with a new local state,
raise an exception, or break out of the loop (only `take` does). The three
`Nat`s are the increments to `dropped`, `batches`, `errors`. -/
inductive StepRes (σ : Type) where
  | yield (out : List Val) (st : σ) (dropped batches errors : Nat)
  | abort (e : Err) (dropped batches errors : Nat)
  | halt

/-- An operator result with nothing executed (frozen generator). -/
def zeroRes : OpRes := ⟨[], 0, false, 0, 0, 0, none⟩

/-- Generic lazy generator runner.  `step` is the loop body run on each input
item with the operator's local state; `flush` is the end-of-input action run
when the input raises `StopIteration` cleanly (`batch` emits its partial
buffer there; all other operators emit nothing).  `b` is the pull budget,
`xs` the items the upstream would deliver, `ie` the exception, if any, with
which the upstream ends instead of a clean stop.  Budget is spent one unit
per yielded item; a generator whose budget reaches zero is frozen at that
yield and executes nothing further. -/
def genRun (step : σ → Val → StepRes σ) (flush : σ → List Val × Nat) :
    Budget → List Val → σ → Option Err → OpRes
  | b, [], s, ie =>
    if bFrozen b then zeroRes
    else
      match ie with
      | some e => ⟨[], 0, true, 0, 0, 0, some e⟩
      | none => ⟨takeB b (flush s).1, 0, true, 0, (flush s).2, 0, none⟩
  | b, x :: rest, s, ie =>
    if bFrozen b then zeroRes
    else
      match step s x with
      | .halt => ⟨[], 1, false, 0, 0, 0, none⟩
      | .abort e d bb ee => ⟨[], 1, false, d, bb, ee, some e⟩
      | .yield out s2 d bb ee =>
        let b2 := bSub b out.length
        if bFrozen b2 then ⟨takeB b out, 1, false, d, bb, ee, none⟩
        else
          let r := genRun step flush b2 rest s2 ie
          ⟨takeB b out ++ r.out, r.consumed + 1, r.extraPull,
            d + r.dropped, bb + r.batches, ee + r.errors, r.err⟩

/-- The comparison value used by `dedupe`: `key(item)` when a key function is
given, else the item itself. -/
def keyOf (key : Option (Val → Val)) (x : Val) : Val :=
  match key with
  | some f => f x
  | none => x

/-- `map(fn)` loop body: `yield fn(item)`. -/
def mapStep (f : Val → Val) : Unit → Val → StepRes Unit :=
  fun _ x => .yield [f x] () 0 0 0

/-- `flat_map(fn)` loop body: `yield from fn(item)`. -/
def flatMapStep (f : Val → List Val) : Unit → Val → StepRes Unit :=
  fun _ x => .yield (f x) () 0 0 0

/-- `filter(fn)` loop body: yield the item when the predicate holds, else
increment `dropped`. -/
def filterStep (p : Val → Bool) : Unit → Val → StepRes Unit :=
  fun _ x => if p x then .yield [x] () 0 0 0 else .yield [] () 1 0 0

/-- `tap(fn)` loop body: `fn(item); yield item`.  The call to `fn` is for its
side effect only, which has no observable trace in this model. -/
def tapStep (_f : Val → Val) : Unit → Val → StepRes Unit :=
  fun _ x => .yield [x] () 0 0 0

/-- `batch(size)` loop body: append to the buffer; when the buffer length
equals `size`, increment `batches` and yield the buffer as one group.  The
comparison is exact equality against the possibly non-positive Python int
`size`, as in the source. -/
def batchStep (size : Int) : List Val → Val → StepRes (List Val) :=
  fun buf x =>
    let buf2 := buf ++ [x]
    if (buf2.length : Int) = size then .yield [Val.list buf2] [] 0 1 0
    else .yield [] buf2 0 0 0

/-- `batch` end-of-input action: `if buffer: stats.batches += 1; yield buffer`. -/
def batchFlush (buf : List Val) : List Val × Nat :=
  if buf.isEmpty then ([], 0) else ([Val.list buf], 1)

/-- `rate_limit(rate, per)` loop body: it only sleeps, then yields the item
unchanged. -/
def rateStep : Unit → Val → StepRes Unit :=
  fun _ x => .yield [x] () 0 0 0

/-- `dedupe` loop body: if the key value is in the seen set, drop the item;
else insert it (evicting the oldest key once the set exceeds `max_size`) and
yield the item.  The seen set is the ordered list of keys, oldest first,
mirroring the `OrderedDict` with `popitem(last=False)`. -/
def dedupeStep (key : Option (Val → Val)) (maxSize : Option Nat) :
    List Val → Val → StepRes (List Val) :=
  fun seen x =>
    let kv := keyOf key x
    if seen.contains kv then .yield [] seen 1 0 0
    else
      let s2 := seen ++ [kv]
      let s3 := match maxSize with
        | some m => if m < s2.length then s2.drop 1 else s2
        | none => s2
      .yield [x] s3 0 0 0

/-- The retry loop of `retry_map` for one item: `g a` is the outcome of the
call to `fn(item)` on attempt number `a` (the function may be impure, so its
outcome is indexed by the attempt), `rem` the attempts remaining after this
one.  Returns the final outcome together with the number of matching failures
counted into `errors`.  A failure not matching the declared exceptions is
re-raised immediately and not counted. -/
def retryAttempt (g : Nat → Except Err Val) (exc : Err → Bool) :
    Nat → Nat → Except Err Val × Nat
  | a, rem =>
    match g a with
    | .ok v => (.ok v, 0)
    | .error e =>
      if exc e then
        match rem with
        | 0 => (.error e, 1)
        | rem' + 1 =>
          let r := retryAttempt g exc (a + 1) rem'
          (r.1, r.2 + 1)
      else (.error e, 0)

/-- `retry_map(fn, retries, backoff, exceptions)` loop body: run the retry
loop; on eventual success yield the result, on exhaustion (or a non-matching
exception) re-raise.  Backoff only sleeps. -/
def retryStep (f : Val → Nat → Except Err Val) (retries : Nat) (exc : Err → Bool) :
    Unit → Val → StepRes Unit :=
  fun _ x =>
    match retryAttempt (f x) exc 0 retries with
    | (.ok v, k) => .yield [v] () 0 0 k
    | (.error e, k) => .abort e 0 0 k

/-- `take(n)` loop body: `if count >= n: break`, else yield and increment the
count.  `n` is a Python int and may be negative. -/
def takeStep (n : Int) : Nat → Val → StepRes Nat :=
  fun c x => if n ≤ (c : Int) then .halt else .yield [x] (c + 1) 0 0 0

/-- `catch(fn, on_error, exceptions)` loop body: yield `fn(item)` on success;
on a matching failure call `on_error` (side effect only), increment `errors`
and drop the item; re-raise a non-matching failure. -/
def catchStep (f : Val → Except Err Val) (exc : Err → Bool) :
    Unit → Val → StepRes Unit :=
  fun _ x =>
    match f x with
    | .ok v => .yield [v] () 0 0 0
    | .error e => if exc e then .yield [] () 0 0 1 else .abort e 0 0 0

/-- End-of-input action of every operator except `batch`: nothing. -/
def flushNone {σ : Type} : σ → List Val × Nat := fun _ => ([], 0)

/-- One operator of the chain, holding exactly the parameters the
corresponding `Pipe` method closes over. -/
inductive Op where
  | map (f : Val → Val)
  | flatMap (f : Val → List Val)
  | filter (p : Val → Bool)
  | tap (f : Val → Val)
  | batch (size : Int)
  | rateLimit (rate : Nat) (per : Nat)
  | dedupe (key : Option (Val → Val)) (maxSize : Option Nat)
  | retryMap (f : Val → Nat → Except Err Val) (retries : Nat) (backoff : Nat)
      (exc : Err → Bool)
  | take (n : Int)
  | catch (f : Val → Except Err Val) (onError : Val → Err → Unit) (exc : Err → Bool)

/-- Run one operator generator under a pull budget over the items its
upstream would deliver. -/
def opRun : Op → Budget → List Val → Option Err → OpRes
  | .map f, b, xs, ie => genRun (mapStep f) flushNone b xs () ie
  | .flatMap f, b, xs, ie => genRun (flatMapStep f) flushNone b xs () ie
  | .filter p, b, xs, ie => genRun (filterStep p) flushNone b xs () ie
  | .tap f, b, xs, ie => genRun (tapStep f) flushNone b xs () ie
  | .batch size, b, xs, ie => genRun (batchStep size) batchFlush b xs [] ie
  | .rateLimit _ _, b, xs, ie => genRun rateStep flushNone b xs () ie
  | .dedupe key ms, b, xs, ie => genRun (dedupeStep key ms) flushNone b xs [] ie
  | .retryMap f r _ exc, b, xs, ie => genRun (retryStep f r exc) flushNone b xs () ie
  | .take n, b, xs, ie => genRun (takeStep n) flushNone b xs 0 ie
  | .catch f _ exc, b, xs, ie => genRun (catchStep f exc) flushNone b xs () ie

/-- Result of evaluating a (suffix of a) composed chain over the source:
delivered outputs, number of source items pulled (`processed`), the summed
statistics deltas, and the exception with which the composed generator ends,
if any. -/
structure ChainRes where
  out : List Val
  processed : Nat
  dropped : Nat
  batches : Nat
  errors : Nat
  err : Option Err

/-- Evaluate a chain given in reverse registration order (head = the operator
closest to `run`'s consumption loop) under a pull budget.  The empty chain is
the counting source wrapper `run._source`.  For `op :: rest`: the operator is
run over the full-drain output of its upstream, and the upstream is then
accounted under the pull budget the operator actually placed on it — the
items it consumed, plus the one further pull that discovers exhaustion or
receives the upstream's exception (that pull can make the upstream perform
real work, e.g. flush a partial batch or pull more source items). -/
def evalRev : List Op → Budget → List Val → ChainRes
  | [], b, xs => ⟨takeB b xs, minB b xs.length, 0, 0, 0, none⟩
  | op :: rest, b, xs =>
    let full := evalRev rest none xs
    let r := opRun op b full.out full.err
    let up := evalRev rest (some (r.consumed + (if r.extraPull then 1 else 0))) xs
    ⟨r.out, up.processed, up.dropped + r.dropped, up.batches + r.batches,
      up.errors + r.errors, r.err⟩

/-- Per-run statistics record (`RunStats` in `stats/model.py`).  `duration`
is wall-clock time, modeled as the explicit elapsed-time parameter of the
run. -/
structure RunStats where
  processed : Nat
  emitted : Nat
  dropped : Nat
  batches : Nat
  errors : Nat
  duration : Nat

/-- The pipeline builder (`Pipe`): a source reference and the ordered list of
operator closures. -/
structure Pipe where
  source : List Val
  ops : List Op

/-- `Pipe._add_op`: a new builder over the same source with one operator
appended. -/
def Pipe.addOp (p : Pipe) (op : Op) : Pipe := ⟨p.source, p.ops ++ [op]⟩

def Pipe.map (p : Pipe) (f : Val → Val) : Pipe := p.addOp (.map f)

def Pipe.flat_map (p : Pipe) (f : Val → List Val) : Pipe := p.addOp (.flatMap f)

def Pipe.filter (p : Pipe) (f : Val → Bool) : Pipe := p.addOp (.filter f)

def Pipe.tap (p : Pipe) (f : Val → Val) : Pipe := p.addOp (.tap f)

def Pipe.batch (p : Pipe) (size : Int) : Pipe := p.addOp (.batch size)

def Pipe.rate_limit (p : Pipe) (rate per : Nat) : Pipe := p.addOp (.rateLimit rate per)

def Pipe.dedupe (p : Pipe) (key : Option (Val → Val)) (maxSize : Option Nat) : Pipe :=
  p.addOp (.dedupe key maxSize)

def Pipe.retry_map (p : Pipe) (f : Val → Nat → Except Err Val) (retries : Nat)
    (backoff : Nat) (exc : Err → Bool) : Pipe :=
  p.addOp (.retryMap f retries backoff exc)

def Pipe.take (p : Pipe) (n : Int) : Pipe := p.addOp (.take n)

def Pipe.catch (p : Pipe) (f : Val → Except Err Val) (onError : Val → Err → Unit)
    (exc : Err → Bool) : Pipe :=
  p.addOp (.catch f onError exc)

/-- The `pipe(iterable)` factory: a builder with no operators. -/
def pipe (xs : List Val) : Pipe := ⟨xs, []⟩

/-- `Pipe.run(sink)`: compose the operators over the counting source, pull to
exhaustion.  Returns the sink trace (the emitted items, in order) paired with
the statistics on success; an uncaught exception escapes instead and no
statistics record is produced.  `t` is the elapsed wall-clock time recorded
into `duration`. -/
def runWith (p : Pipe) (t : Nat) : Except Err (List Val × RunStats) :=
  let res := evalRev p.ops.reverse none p.source
  match res.err with
  | some e => .error e
  | none =>
    .ok (res.out, ⟨res.processed, res.out.length, res.dropped, res.batches,
      res.errors, t⟩)

/-- Shorthand for integer items. -/
def iv (n : Int) : Val := .int n

/-- Whether an operator is a `flat_map` (the only operator that can yield
more than one output for one consumed input). -/
def Op.isFlatMapB : Op → Bool
  | .flatMap _ => true
  | _ => false

/-- The credit banked in a `batch` buffer: a non-empty buffer holds one
pending group. -/
def batchCredit (buf : List Val) : Nat := if buf.isEmpty then 0 else 1

/-- No operator of the chain is a `flat_map`. -/
def noFlatMap (ops : List Op) : Prop := ∀ op ∈ ops, op.isFlatMapB = false

/-- Spec-side grouping of `batch(size)` for positive `size`: successive
groups of `size` items in input order, the last group possibly shorter. -/
def chunksOf (s : Nat) : List Val → List (List Val)
  | [] => []
  | x :: rest =>
    if _h : s = 0 then []
    else (x :: rest).take s :: chunksOf s ((x :: rest).drop s)
termination_by xs => xs.length
decreasing_by
  simp only [List.length_drop, List.length_cons]
  omega

/-- Spec-side first-occurrence filter for unbounded `dedupe`: keep each item
whose key value has not been seen before, in first-seen order; `seen` is the
list of key values already seen. -/
def firstOcc (k : Val → Val) (seen : List Val) : List Val → List Val
  | [] => []
  | x :: rest =>
    if seen.contains (k x) then firstOcc k seen rest
    else x :: firstOcc k (seen ++ [k x]) rest

/-- Whether a call outcome is a failure matching the declared exceptions of a
`retry_map`/`catch` operator. -/
def isMatchFail (r : Except Err Val) (exc : Err → Bool) : Bool :=
  match r with
  | .ok _ => false
  | .error e => exc e

-- Model validation against the repository's test suite (test_pipe.py).

example : runWith (pipe [iv 1, iv 2, iv 3] |>.map (fun x => .list [x])) 0 =
    .ok ([.list [iv 1], .list [iv 2], .list [iv 3]],
      ⟨3, 3, 0, 0, 0, 0⟩) := rfl

example : runWith (pipe [iv 1, iv 2, iv 3] |>.flat_map (fun x => [x, x])) 0 =
    .ok ([iv 1, iv 1, iv 2, iv 2, iv 3, iv 3], ⟨3, 6, 0, 0, 0, 0⟩) := rfl

example : runWith (pipe [iv 0, iv 1, iv 2, iv 3, iv 4, iv 5, iv 6] |>.batch 3) 0 =
    .ok ([.list [iv 0, iv 1, iv 2], .list [iv 3, iv 4, iv 5], .list [iv 6]],
      ⟨7, 3, 0, 3, 0, 0⟩) := rfl

example : runWith (pipe [iv 3, iv 1, iv 2, iv 1, iv 3] |>.dedupe none none) 0 =
    .ok ([iv 3, iv 1, iv 2], ⟨5, 3, 2, 0, 0, 0⟩) := rfl

example : runWith (pipe [iv 1, iv 2, iv 3, iv 1] |>.dedupe none (some 2)) 0 =
    .ok ([iv 1, iv 2, iv 3, iv 1], ⟨4, 4, 0, 0, 0, 0⟩) := rfl

example :
    runWith (pipe [iv 0, iv 1, iv 2, iv 3, iv 4] |>.take 3) 0 =
    .ok ([iv 0, iv 1, iv 2], ⟨4, 3, 0, 0, 0, 0⟩) := rfl

example : runWith (pipe [iv 1, iv 2, iv 3] |>.take 0) 0 =
    .ok ([], ⟨1, 0, 0, 0, 0, 0⟩) := rfl

example : runWith (pipe [iv 1, iv 2] |>.take 10) 0 =
    .ok ([iv 1, iv 2], ⟨2, 2, 0, 0, 0, 0⟩) := rfl

-- chaining filter → map → batch over range(10), as in the test suite
example :
    runWith (pipe ((List.range 10).map (fun n => iv n))
      |>.filter (fun x => match x with | .int n => n % 2 == 0 | _ => false)
      |>.map (fun x => match x with | .int n => iv (n * 3) | v => v)
      |>.batch 2) 0 =
    .ok ([.list [iv 0, iv 6], .list [iv 12, iv 18], .list [iv 24]],
      ⟨10, 3, 5, 3, 0, 0⟩) := rfl

-- retry_map: fails twice then succeeds; errors counted, result emitted
example :
    runWith (pipe [iv 1] |>.retry_map
      (fun _ a => if a < 2 then .error 7 else .ok (iv 10)) 3 0 (fun _ => true)) 0 =
    .ok ([iv 10], ⟨1, 1, 0, 0, 2, 0⟩) := rfl

-- retry_map: exhausts all attempts; the last failure escapes, no stats
example :
    runWith (pipe [iv 1] |>.retry_map
      (fun _ _ => .error 9) 2 0 (fun _ => true)) 0 = .error 9 := rfl

-- catch: failing items suppressed, errors counted, run continues
example :
    runWith (pipe [iv 1, iv 2, iv 3] |>.catch
      (fun x => match x with | .int 2 => .error 5 | v => .ok v)
      (fun _ _ => ()) (fun _ => true)) 0 =
    .ok ([iv 1, iv 3], ⟨3, 2, 0, 0, 1, 0⟩) := rfl

-- laziness of take over a longer source: only n+1 items pulled
example :
    runWith (pipe ((List.range 100).map (fun n => iv n)) |>.take 3) 0 =
    .ok ([iv 0, iv 1, iv 2], ⟨4, 3, 0, 0, 0, 0⟩) := rfl

-- batch upstream of take: the second group is assembled (6 items pulled)
-- before take notices its limit
example :
    runWith (pipe ((List.range 7).map (fun n => iv n)) |>.batch 3 |>.take 1) 0 =
    .ok ([.list [iv 0, iv 1, iv 2]], ⟨6, 1, 0, 2, 0, 0⟩) := rfl

-- Budget bookkeeping lemmas.

theorem bFrozen_none : bFrozen none = false := rfl

theorem bFrozen_some (n : Nat) : bFrozen (some n) = decide (n = 0) := by
  cases n <;> simp [bFrozen]

theorem takeB_length (b : Budget) (l : List Val) :
    (takeB b l).length = minB b l.length := by
  cases b <;> simp [takeB, minB]

theorem takeB_length_le (b : Budget) (l : List Val) :
    (takeB b l).length ≤ l.length := by
  cases b <;> simp [takeB]

/-- A generator never consumes more items than its upstream can deliver. -/
theorem genRun_consumed_le {σ : Type} (step : σ → Val → StepRes σ)
    (flush : σ → List Val × Nat) :
    ∀ (xs : List Val) (b : Budget) (s : σ) (ie : Option Err),
      (genRun step flush b xs s ie).consumed ≤ xs.length := by
  intro xs
  induction xs with
  | nil =>
    intro b s ie
    by_cases h : bFrozen b = true <;> cases ie <;> simp [genRun, h, zeroRes]
  | cons x rest ih =>
    intro b s ie
    by_cases h : bFrozen b = true
    · simp [genRun, h, zeroRes]
    · simp only [genRun, h, if_false, Bool.false_eq_true]
      cases hs : step s x with
      | halt => simp
      | abort e d bb ee => simp
      | yield out s2 d bb ee =>
        by_cases h2 : bFrozen (bSub b out.length) = true
        · simp [h2]
        · simp only [h2, if_false, Bool.false_eq_true, List.length_cons]
          have := ih (bSub b out.length) s2 ie
          omega

/-- Delivered output under a finite pull budget is the budget-sized prefix of
the full-drain output: a generator pulled `p` times delivers
`min p` (total outputs) items. -/
theorem genRun_out_trunc {σ : Type} (step : σ → Val → StepRes σ)
    (flush : σ → List Val × Nat) :
    ∀ (xs : List Val) (p : Nat) (s : σ) (ie : Option Err),
      (genRun step flush (some p) xs s ie).out.length =
        min p (genRun step flush none xs s ie).out.length := by
  intro xs
  induction xs with
  | nil =>
    intro p s ie
    cases p with
    | zero => simp [genRun, bFrozen, zeroRes]
    | succ p =>
      cases ie with
      | some e => simp [genRun, bFrozen]
      | none => simp [genRun, bFrozen, takeB]
  | cons x rest ih =>
    intro p s ie
    cases p with
    | zero => simp [genRun, bFrozen, zeroRes]
    | succ p =>
      simp only [genRun, bFrozen_some, bFrozen_none, if_false, Bool.false_eq_true,
        decide_eq_true_eq, Nat.succ_ne_zero, if_false]
      cases hs : step s x with
      | halt => simp
      | abort e d bb ee => simp
      | yield out s2 d bb ee =>
        simp only [bSub, bFrozen_some, bFrozen_none, decide_eq_true_eq,
          Bool.false_eq_true, if_false]
        by_cases hm : p + 1 - out.length = 0
        · have hle : p + 1 ≤ out.length := by omega
          simp only [hm, if_true, takeB, List.length_take, List.length_append]
          omega
        · simp only [hm, if_false, takeB]
          have := ih (p + 1 - out.length) s2 ie
          simp only [List.length_append, List.length_take, this]
          omega

/-- Output-count bound for one-in-at-most-one-out operators.  `cr` is a
credit carried by the operator's local state (`batch` holds one pending group
in a non-empty buffer; every other operator carries nothing): each loop
iteration consumes one item and may spend or bank at most one unit of credit,
and the end-of-input flush can emit at most the banked credit. -/
theorem genRun_out_le {σ : Type} (step : σ → Val → StepRes σ)
    (flush : σ → List Val × Nat) (cr : σ → Nat)
    (hstep : ∀ s x out s2 d bb ee, step s x = .yield out s2 d bb ee →
      out.length + cr s2 ≤ 1 + cr s)
    (hflush : ∀ s, (flush s).1.length ≤ cr s) :
    ∀ (xs : List Val) (b : Budget) (s : σ) (ie : Option Err),
      (genRun step flush b xs s ie).out.length ≤
        (genRun step flush b xs s ie).consumed + cr s := by
  intro xs
  induction xs with
  | nil =>
    intro b s ie
    by_cases h : bFrozen b = true
    · simp [genRun, h, zeroRes]
    · cases ie with
      | some e => simp [genRun, h]
      | none =>
        simp only [genRun, h, if_false, Bool.false_eq_true]
        have h1 := takeB_length_le b (flush s).1
        have h2 := hflush s
        omega
  | cons x rest ih =>
    intro b s ie
    by_cases h : bFrozen b = true
    · simp [genRun, h, zeroRes]
    · simp only [genRun, h, if_false, Bool.false_eq_true]
      cases hs : step s x with
      | halt => simp
      | abort e d bb ee => simp
      | yield out s2 d bb ee =>
        have hy := hstep s x out s2 d bb ee hs
        have ht := takeB_length_le b out
        by_cases h2 : bFrozen (bSub b out.length) = true
        · simp only [h2, if_true]
          omega
        · simp only [h2, if_false, Bool.false_eq_true]
          have := ih (bSub b out.length) s2 ie
          simp only [List.length_append]
          omega

theorem opRun_consumed_le (op : Op) (b : Budget) (xs : List Val) (ie : Option Err) :
    (opRun op b xs ie).consumed ≤ xs.length := by
  cases op <;> exact genRun_consumed_le _ _ xs b _ ie

theorem opRun_out_trunc (op : Op) (p : Nat) (xs : List Val) (ie : Option Err) :
    (opRun op (some p) xs ie).out.length =
      min p (opRun op none xs ie).out.length := by
  cases op <;> exact genRun_out_trunc _ _ xs p _ ie

theorem batchCredit_le_one (buf : List Val) : batchCredit buf ≤ 1 := by
  simp only [batchCredit]
  split <;> omega

/-- Every operator except `flat_map` yields at most one output per consumed
input item (plus, for `batch`, the single group banked in its buffer), so its
output count never exceeds its consumption count. -/
theorem opRun_out_le (op : Op) (h : op.isFlatMapB = false) (b : Budget)
    (xs : List Val) (ie : Option Err) :
    (opRun op b xs ie).out.length ≤ (opRun op b xs ie).consumed := by
  have hfl : ∀ (s : Unit), ((flushNone s).1.length ≤ (fun (_ : Unit) => 0) s) := by
    intro s; simp [flushNone]
  cases op
  case flatMap f => simp [Op.isFlatMapB] at h
  case map f =>
    have := genRun_out_le (mapStep f) flushNone (fun _ => 0)
      (by intro s x out s2 d bb ee hs
          simp only [mapStep, StepRes.yield.injEq] at hs
          simp [← hs.1]) hfl xs b () ie
    simpa [opRun] using this
  case filter p =>
    have := genRun_out_le (filterStep p) flushNone (fun _ => 0)
      (by intro s x out s2 d bb ee hs
          simp only [filterStep] at hs
          split at hs <;>
            (simp only [StepRes.yield.injEq] at hs; simp [← hs.1])) hfl xs b () ie
    simpa [opRun] using this
  case tap f =>
    have := genRun_out_le (tapStep f) flushNone (fun _ => 0)
      (by intro s x out s2 d bb ee hs
          simp only [tapStep, StepRes.yield.injEq] at hs
          simp [← hs.1]) hfl xs b () ie
    simpa [opRun] using this
  case batch size =>
    have := genRun_out_le (batchStep size) batchFlush batchCredit
      (by intro s x out s2 d bb ee hs
          simp only [batchStep] at hs
          split at hs <;> simp only [StepRes.yield.injEq] at hs <;>
            obtain ⟨h1, h2, -⟩ := hs <;> subst h1 <;> subst h2
          · show 1 + batchCredit [] ≤ 1 + batchCredit s
            have := batchCredit_le_one s
            have h0 : batchCredit [] = 0 := rfl
            omega
          · show 0 + batchCredit (s ++ [x]) ≤ 1 + batchCredit s
            have := batchCredit_le_one (s ++ [x])
            omega)
      (by intro s
          simp only [batchFlush, batchCredit]
          split <;> simp) xs b [] ie
    simpa [opRun, batchCredit] using this
  case rateLimit rate per =>
    have := genRun_out_le rateStep flushNone (fun _ => 0)
      (by intro s x out s2 d bb ee hs
          simp only [rateStep, StepRes.yield.injEq] at hs
          simp [← hs.1]) hfl xs b () ie
    simpa [opRun] using this
  case dedupe key ms =>
    have := genRun_out_le (dedupeStep key ms) flushNone (fun _ => 0)
      (by intro s x out s2 d bb ee hs
          simp only [dedupeStep] at hs
          split at hs <;>
            (simp only [StepRes.yield.injEq] at hs; simp [← hs.1]))
      (by intro s; simp [flushNone]) xs b [] ie
    simpa [opRun] using this
  case retryMap f r bo exc =>
    have := genRun_out_le (retryStep f r exc) flushNone (fun _ => 0)
      (by intro s x out s2 d bb ee hs
          simp only [retryStep] at hs
          rcases hr : retryAttempt (f x) exc 0 r with ⟨res, k⟩
          rw [hr] at hs
          cases res with
          | ok v => simp only [StepRes.yield.injEq] at hs; simp [← hs.1]
          | error e => simp at hs) hfl xs b () ie
    simpa [opRun] using this
  case take n =>
    have := genRun_out_le (takeStep n) flushNone (fun _ => 0)
      (by intro s x out s2 d bb ee hs
          simp only [takeStep] at hs
          split at hs
          · simp at hs
          · simp only [StepRes.yield.injEq] at hs; simp [← hs.1])
      (by intro s; simp [flushNone]) xs b 0 ie
    simpa [opRun] using this
  case _ f oe exc =>
    have := genRun_out_le (catchStep f exc) flushNone (fun _ => 0)
      (by intro s x out s2 d bb ee hs
          simp only [catchStep] at hs
          cases hm : f x with
          | ok v =>
            simp only [hm] at hs
            simp only [StepRes.yield.injEq] at hs; simp [← hs.1]
          | error e =>
            simp only [hm] at hs
            by_cases hx : exc e = true
            · rw [if_pos hx] at hs
              simp only [StepRes.yield.injEq] at hs; simp [← hs.1]
            · rw [if_neg hx] at hs
              exact StepRes.noConfusion hs) hfl xs b () ie
    simpa [opRun] using this

/-- Chain-level budget truncation: a composed chain pulled `p` times delivers
the `p`-sized prefix of its full-drain output. -/
theorem evalRev_out_trunc (ops : List Op) (p : Nat) (xs : List Val) :
    (evalRev ops (some p) xs).out.length =
      min p (evalRev ops none xs).out.length := by
  cases ops with
  | nil => simp [evalRev, takeB, minB]
  | cons op rest =>
    simp only [evalRev]
    exact opRun_out_trunc op p _ _

/-- Core invariant: in a chain with no `flat_map`, the composed generator
never delivers more items than were pulled from the source, under any pull
budget.  Each operator's outputs are bounded by its consumption, and its
consumption is bounded by what its upstream delivers. -/
theorem evalRev_emitted_le (ops : List Op) (h : noFlatMap ops) (b : Budget)
    (xs : List Val) :
    (evalRev ops b xs).out.length ≤ (evalRev ops b xs).processed := by
  induction ops generalizing b with
  | nil => simp [evalRev, takeB_length]
  | cons op rest ih =>
    have hop : op.isFlatMapB = false := h op (List.mem_cons_self op rest)
    have hrest : noFlatMap rest := fun o ho => h o (List.mem_cons_of_mem _ ho)
    simp only [evalRev]
    set full := evalRev rest none xs with hfull
    set r := opRun op b full.out full.err with hr
    set pUp := r.consumed + (if r.extraPull then 1 else 0) with hpUp
    have h1 : r.out.length ≤ r.consumed := opRun_out_le op hop b full.out full.err
    have h2 : r.consumed ≤ full.out.length := opRun_consumed_le op b full.out full.err
    have h3 : (evalRev rest (some pUp) xs).out.length = min pUp full.out.length :=
      evalRev_out_trunc rest pUp xs
    have h4 : (evalRev rest (some pUp) xs).out.length ≤
        (evalRev rest (some pUp) xs).processed := ih hrest (some pUp)
    have h5 : r.consumed ≤ pUp := by cases r.extraPull <;> simp [hpUp]
    omega

/-- C1 (amended): for every pipeline whose operator chain contains no
`flat_map`, every invocation of `run` that returns a statistics record
satisfies `emitted ≤ processed`.  (`flat_map` can yield several outputs per
consumed input and therefore violates the inequality, see
`C1_counterexample`.) -/
theorem C1_emitted_le_processed (p : Pipe) (t : Nat)
    (h : ∀ op ∈ p.ops, op.isFlatMapB = false) (out : List Val) (stats : RunStats)
    (hr : runWith p t = .ok (out, stats)) : stats.emitted ≤ stats.processed := by
  simp only [runWith] at hr
  have hno : noFlatMap p.ops.reverse := fun o ho => h o (List.mem_reverse.mp ho)
  have hle := evalRev_emitted_le p.ops.reverse hno none p.source
  cases hv : (evalRev p.ops.reverse none p.source).err with
  | some e => simp [hv] at hr
  | none =>
    simp only [hv, Except.ok.injEq, Prod.mk.injEq] at hr
    rw [← hr.2]
    exact hle

/-- Witness for C1: a concrete `filter` pipeline, whose run drops one item,
satisfies the invariant. -/
theorem C1_witness :
    (runWith (pipe [iv 1, iv 2, iv 3] |>.filter (fun x => x == iv 2)) 0 =
      .ok ([iv 2], ⟨3, 1, 2, 0, 0, 0⟩)) ∧ (1 : Nat) ≤ 3 :=
  ⟨rfl,
    C1_emitted_le_processed (pipe [iv 1, iv 2, iv 3] |>.filter (fun x => x == iv 2)) 0
      (by intro op hop
          simp only [pipe, Pipe.filter, Pipe.addOp, List.nil_append,
            List.mem_singleton] at hop
          subst hop
          rfl)
      [iv 2] ⟨3, 1, 2, 0, 0, 0⟩ rfl⟩

/-- Counterexample to C1 as stated: a `flat_map` that duplicates its single
input item makes the run report `processed = 1` but `emitted = 2`, so
`emitted ≤ processed` fails for chains containing `flat_map`. -/
theorem C1_counterexample :
    runWith (pipe [iv 1] |>.flat_map (fun x => [x, x])) 0 =
      .ok ([iv 1, iv 1], ⟨1, 2, 0, 0, 0, 0⟩) ∧ ¬ ((2 : Nat) ≤ 1) :=
  ⟨rfl, by omega⟩

/-- C7: runs are deterministic.  Wall-clock time is the only run-dependent
input; for any two elapsed times the run produces the same outcome, the same
emitted sequence, and statistics identical in every field except
`duration`. -/
theorem C7_deterministic (p : Pipe) (t1 t2 : Nat) :
    (runWith p t1).map (fun r => r.1) = (runWith p t2).map (fun r => r.1) ∧
    (runWith p t1).map (fun r =>
        (r.2.processed, r.2.emitted, r.2.dropped, r.2.batches, r.2.errors)) =
      (runWith p t2).map (fun r =>
        (r.2.processed, r.2.emitted, r.2.dropped, r.2.batches, r.2.errors)) := by
  simp only [runWith]
  cases hv : (evalRev p.ops.reverse none p.source).err <;>
    simp [Except.map]

/-- C8: every operator method returns a new builder over the same source
with exactly the corresponding operator appended to the operator list; the
original builder is a pure value and remains usable unchanged. -/
theorem C8_builder_append (p : Pipe) (f : Val → Val) (g : Val → List Val)
    (pr : Val → Bool) (tf : Val → Val) (size : Int) (rate per : Nat)
    (key : Option (Val → Val)) (ms : Option Nat)
    (rf : Val → Nat → Except Err Val) (retries backoff : Nat) (exc : Err → Bool)
    (n : Int) (cf : Val → Except Err Val) (oe : Val → Err → Unit)
    (exc2 : Err → Bool) :
    p.map f = ⟨p.source, p.ops ++ [.map f]⟩ ∧
    p.flat_map g = ⟨p.source, p.ops ++ [.flatMap g]⟩ ∧
    p.filter pr = ⟨p.source, p.ops ++ [.filter pr]⟩ ∧
    p.tap tf = ⟨p.source, p.ops ++ [.tap tf]⟩ ∧
    p.batch size = ⟨p.source, p.ops ++ [.batch size]⟩ ∧
    p.rate_limit rate per = ⟨p.source, p.ops ++ [.rateLimit rate per]⟩ ∧
    p.dedupe key ms = ⟨p.source, p.ops ++ [.dedupe key ms]⟩ ∧
    p.retry_map rf retries backoff exc =
      ⟨p.source, p.ops ++ [.retryMap rf retries backoff exc]⟩ ∧
    p.take n = ⟨p.source, p.ops ++ [.take n]⟩ ∧
    p.catch cf oe exc2 = ⟨p.source, p.ops ++ [.catch cf oe exc2]⟩ :=
  ⟨rfl, rfl, rfl, rfl, rfl, rfl, rfl, rfl, rfl, rfl⟩

-- Characterization of `take(n)` for non-negative `n`.

/-- When the upstream holds at most `n - c` more items, `take` drains it
completely (including the final exhaustion pull) and re-raises any upstream
exception. -/
theorem takeRun_all (m : Nat) (xs : List Val) (c : Nat) (ie : Option Err)
    (h : xs.length + c ≤ m) :
    genRun (takeStep (m : Int)) flushNone none xs c ie =
      ⟨xs, xs.length, true, 0, 0, 0, ie⟩ := by
  induction xs generalizing c with
  | nil => cases ie <;> simp [genRun, bFrozen, takeB, flushNone]
  | cons x rest ih =>
    have hc : ¬ ((m : Int) ≤ (c : Int)) := by
      simp only [List.length_cons] at h
      omega
    simp only [genRun, bFrozen_none, Bool.false_eq_true, if_false, takeStep]
    rw [if_neg hc]
    simp only [bSub, bFrozen_none, Bool.false_eq_true, if_false, List.length_cons]
    rw [ih (c + 1) (by simp only [List.length_cons] at h; omega)]
    simp [takeB]

/-- When the upstream holds more than `n - c` items, `take` yields the next
`n - c` items and then makes exactly one further pull (consuming one more
item) before breaking; the downstream sees a clean end of stream. -/
theorem takeRun_part (m : Nat) (xs : List Val) (c : Nat) (ie : Option Err)
    (h1 : c ≤ m) (h2 : m < c + xs.length) :
    genRun (takeStep (m : Int)) flushNone none xs c ie =
      ⟨xs.take (m - c), (m - c) + 1, false, 0, 0, 0, none⟩ := by
  induction xs generalizing c with
  | nil => simp only [List.length_cons, List.length_nil] at h2; omega
  | cons x rest ih =>
    by_cases hm : m ≤ c
    · have hmc : m = c := Nat.le_antisymm hm h1
      have hci : (m : Int) ≤ (c : Int) := by omega
      simp only [genRun, bFrozen_none, Bool.false_eq_true, if_false, takeStep]
      rw [if_pos hci]
      simp [Nat.sub_eq_zero_of_le hm]
    · have hci : ¬ ((m : Int) ≤ (c : Int)) := by omega
      simp only [genRun, bFrozen_none, Bool.false_eq_true, if_false, takeStep]
      rw [if_neg hci]
      simp only [bSub, bFrozen_none, Bool.false_eq_true, if_false, List.length_cons]
      rw [ih (c + 1) (by omega) (by simp only [List.length_cons] at h2; omega)]
      have hmc : m - c = (m - (c + 1)) + 1 := by omega
      simp [takeB, hmc]

/-- Evaluating a single-operator chain: the operator runs over the counting
source at full drain, and `processed` is the number of pulls it made, capped
at the source length. -/
theorem evalRev_single (op : Op) (xs : List Val) :
    evalRev [op] none xs =
      ⟨(opRun op none xs none).out,
       minB (some ((opRun op none xs none).consumed +
         (if (opRun op none xs none).extraPull then 1 else 0))) xs.length,
       (opRun op none xs none).dropped, (opRun op none xs none).batches,
       (opRun op none xs none).errors, (opRun op none xs none).err⟩ := by
  simp [evalRev, takeB, minB]

/-- Reduction of `runWith` on a single-operator pipeline to the chain
evaluator. -/
theorem runWith_single_eq (op : Op) (xs : List Val) (t : Nat) :
    runWith ⟨xs, [op]⟩ t =
      (match (evalRev [op] none xs).err with
       | some e => .error e
       | none => .ok ((evalRev [op] none xs).out,
           ⟨(evalRev [op] none xs).processed, (evalRev [op] none xs).out.length,
            (evalRev [op] none xs).dropped, (evalRev [op] none xs).batches,
            (evalRev [op] none xs).errors, t⟩)) := rfl

/-- A single-operator run that raises nothing returns the operator's outputs
and statistics. -/
theorem runWith_single_ok (op : Op) (xs : List Val) (t : Nat)
    (h : (opRun op none xs none).err = none) :
    runWith ⟨xs, [op]⟩ t =
      .ok ((opRun op none xs none).out,
        ⟨minB (some ((opRun op none xs none).consumed +
            (if (opRun op none xs none).extraPull then 1 else 0))) xs.length,
         (opRun op none xs none).out.length, (opRun op none xs none).dropped,
         (opRun op none xs none).batches, (opRun op none xs none).errors, t⟩) := by
  rw [runWith_single_eq, evalRev_single op xs]
  simp only [h]

/-- A single-operator run whose operator raises aborts with that exception. -/
theorem runWith_single_err (op : Op) (xs : List Val) (t : Nat) (e : Err)
    (h : (opRun op none xs none).err = some e) :
    runWith ⟨xs, [op]⟩ t = .error e := by
  rw [runWith_single_eq, evalRev_single op xs]
  simp only [h]

/-- C2 (amended): for every `n ≥ 0` and N-item input, `take(n)` emits exactly
the first `min n N` items, in order, and terminates; `n = 0` emits nothing.
However, after emitting its n-th item it makes exactly one further pull to
its upstream before detecting the limit, so `min (n + 1) N` items are pulled
from the source — not `n` (with `n = 0` over a non-empty source one item is
still pulled). -/
theorem C2_take_emits_min (n : Nat) (xs : List Val) (t : Nat) :
    runWith (pipe xs |>.take (n : Int)) t =
      .ok (xs.take n, ⟨min (n + 1) xs.length, min n xs.length, 0, 0, 0, t⟩) := by
  have hp : (pipe xs |>.take (n : Int)) = (⟨xs, [Op.take (n : Int)]⟩ : Pipe) := rfl
  rw [hp]
  by_cases h : xs.length ≤ n
  · have hc : opRun (Op.take (n : Int)) none xs none =
        ⟨xs, xs.length, true, 0, 0, 0, none⟩ := takeRun_all n xs 0 none (by omega)
    rw [runWith_single_ok _ _ _ (by rw [hc])]
    rw [hc]
    have h1 : xs.take n = xs := List.take_of_length_le h
    simp [minB, h1]
    omega
  · have hc : opRun (Op.take (n : Int)) none xs none =
        ⟨xs.take (n - 0), (n - 0) + 1, false, 0, 0, 0, none⟩ :=
      takeRun_part n xs 0 none (Nat.zero_le n) (by omega)
    rw [runWith_single_ok _ _ _ (by rw [hc])]
    rw [hc]
    simp [minB]

/-- Counterexample to C2 as stated: `take(0)` over the non-empty source
`[1, 2, 3]` still pulls one item from the source (`processed = 1`), so the
claim that upstream receives no pull when `n = 0` (and, in general, no pull
after the n-th emission) is false. -/
theorem C2_counterexample :
    runWith (pipe [iv 1, iv 2, iv 3] |>.take 0) 0 =
      .ok ([], ⟨1, 0, 0, 0, 0, 0⟩) ∧ (1 : Nat) ≠ 0 :=
  ⟨rfl, by omega⟩

/-- C9: over a source holding more than `n` items, `take(n)` pulls exactly
`n + 1` items (it advances its input once more after the n-th emission before
detecting the limit) and emits exactly `n`; in particular `take(0)` over a
non-empty source yields `processed = 1`, `emitted = 0`. -/
theorem C9_take_pulls (n : Nat) (xs : List Val) (t : Nat) (h : n < xs.length) :
    runWith (pipe xs |>.take (n : Int)) t =
      .ok (xs.take n, ⟨n + 1, n, 0, 0, 0, t⟩) := by
  have hp : (pipe xs |>.take (n : Int)) = (⟨xs, [Op.take (n : Int)]⟩ : Pipe) := rfl
  rw [hp]
  have hc : opRun (Op.take (n : Int)) none xs none =
      ⟨xs.take (n - 0), (n - 0) + 1, false, 0, 0, 0, none⟩ :=
    takeRun_part n xs 0 none (Nat.zero_le n) (by omega)
  rw [runWith_single_ok _ _ _ (by rw [hc])]
  rw [hc]
  simp [minB]
  omega

/-- Witness for C9 at `n = 2` over a five-item source, and at `n = 0` over a
non-empty source. -/
theorem C9_witness :
    (runWith (pipe [iv 1, iv 2, iv 3, iv 4, iv 5] |>.take (2 : Int)) 0 =
      .ok ([iv 1, iv 2], ⟨3, 2, 0, 0, 0, 0⟩)) ∧
    (runWith (pipe [iv 7] |>.take (0 : Int)) 0 =
      .ok ([], ⟨1, 0, 0, 0, 0, 0⟩)) :=
  ⟨C9_take_pulls 2 [iv 1, iv 2, iv 3, iv 4, iv 5] 0 (by simp),
   C9_take_pulls 0 [iv 7] 0 (by simp)⟩

-- Characterization of `batch(size)`.

theorem chunksOf_cons (s : Nat) (hs : s ≠ 0) (x : Val) (rest : List Val) :
    chunksOf s (x :: rest) =
      (x :: rest).take s :: chunksOf s ((x :: rest).drop s) := by
  rw [chunksOf]
  simp [hs]

theorem chunksOf_ne_nil (s : Nat) (hs : s ≠ 0) (xs : List Val) (hne : xs ≠ []) :
    chunksOf s xs = xs.take s :: chunksOf s (xs.drop s) := by
  cases xs with
  | nil => exact absurd rfl hne
  | cons y rest => exact chunksOf_cons s hs y rest

/-- For a positive size, `batch` over an input with a partially filled buffer
emits exactly the `size`-chunks of buffer-then-input, counting one `batches`
increment per emitted group (including the final flush). -/
theorem batchRun_pos (s : Nat) (hs : 1 ≤ s) (xs : List Val) :
    ∀ (buf : List Val), buf.length < s →
      genRun (batchStep (s : Int)) batchFlush none xs buf none =
        ⟨(chunksOf s (buf ++ xs)).map Val.list, xs.length, true, 0,
         (chunksOf s (buf ++ xs)).length, 0, none⟩ := by
  induction xs with
  | nil =>
    intro buf hbuf
    simp only [genRun, bFrozen_none, Bool.false_eq_true, if_false, takeB,
      List.append_nil]
    cases buf with
    | nil => simp [batchFlush, chunksOf]
    | cons b bs =>
      rw [chunksOf_cons s (by omega)]
      have h1 : (b :: bs).take s = b :: bs :=
        List.take_of_length_le (Nat.le_of_lt hbuf)
      have h2 : (b :: bs).drop s = [] := by
        apply List.drop_eq_nil_of_le
        exact Nat.le_of_lt hbuf
      simp [batchFlush, h1, h2, chunksOf]
  | cons x rest ih =>
    intro buf hbuf
    simp only [genRun, bFrozen_none, Bool.false_eq_true, if_false, batchStep]
    by_cases hfull : ((buf ++ [x]).length : Int) = (s : Int)
    · have hfull' : (buf ++ [x]).length = s := by exact_mod_cast hfull
      rw [if_pos hfull]
      simp only [bSub, bFrozen_none, Bool.false_eq_true, if_false,
        List.length_cons, List.length_singleton]
      rw [ih [] (by simp only [List.length_nil]; omega)]
      simp only [List.nil_append]
      have hx : buf ++ x :: rest = (buf ++ [x]) ++ rest := by simp
      have h1 : ((buf ++ [x]) ++ rest).take s = buf ++ [x] := by
        rw [← hfull']
        exact List.take_left (buf ++ [x]) rest
      have h2 : ((buf ++ [x]) ++ rest).drop s = rest := by
        rw [← hfull']
        exact List.drop_left (buf ++ [x]) rest
      have hch : chunksOf s (buf ++ x :: rest) = (buf ++ [x]) :: chunksOf s rest := by
        rw [hx, chunksOf_ne_nil s (by omega) ((buf ++ [x]) ++ rest) (by simp), h1, h2]
      rw [hch]
      simp [takeB, Nat.add_comm]
    · have hfull' : (buf ++ [x]).length ≠ s := by
        intro hx; exact hfull (by exact_mod_cast hx)
      rw [if_neg hfull]
      simp only [bSub, bFrozen_none, Bool.false_eq_true, if_false]
      have hlen : (buf ++ [x]).length < s := by
        have : (buf ++ [x]).length = buf.length + 1 := by simp
        omega
      rw [ih (buf ++ [x]) hlen]
      have hx : buf ++ x :: rest = (buf ++ [x]) ++ rest := by simp
      rw [hx]
      simp [takeB]

/-- For a non-positive size, the buffer length (always at least 1 after an
append) never equals the size, so nothing is emitted mid-stream and the whole
input is flushed as a single group at exhaustion. -/
theorem batchRun_nonpos (size : Int) (hsize : size ≤ 0) (xs : List Val) :
    ∀ (buf : List Val),
      genRun (batchStep size) batchFlush none xs buf none =
        ⟨(if (buf ++ xs).isEmpty then [] else [Val.list (buf ++ xs)]),
         xs.length, true, 0, (if (buf ++ xs).isEmpty then 0 else 1), 0, none⟩ := by
  induction xs with
  | nil =>
    intro buf
    simp only [genRun, bFrozen_none, Bool.false_eq_true, if_false, takeB,
      List.append_nil]
    cases buf with
    | nil => simp [batchFlush]
    | cons b bs => simp [batchFlush]
  | cons x rest ih =>
    intro buf
    simp only [genRun, bFrozen_none, Bool.false_eq_true, if_false, batchStep]
    have hne : ¬ (((buf ++ [x]).length : Int) = size) := by
      have : (buf ++ [x]).length = buf.length + 1 := by simp
      omega
    rw [if_neg hne]
    simp only [bSub, bFrozen_none, Bool.false_eq_true, if_false]
    rw [ih (buf ++ [x])]
    have hx : buf ++ x :: rest = (buf ++ [x]) ++ rest := by simp
    rw [hx]
    have hempty : ((buf ++ [x]) ++ rest).isEmpty = false := by
      cases buf <;> rfl
    simp [takeB, hempty]

theorem chunksOf_join (s : Nat) (hs : s ≠ 0) (xs : List Val) :
    (chunksOf s xs).flatten = xs := by
  have H : ∀ (n : Nat) (ys : List Val), ys.length ≤ n →
      (chunksOf s ys).flatten = ys := by
    intro n
    induction n with
    | zero =>
      intro ys h
      have : ys = [] := List.length_eq_zero.mp (by omega)
      subst this
      simp [chunksOf]
    | succ n ih =>
      intro ys h
      cases ys with
      | nil => simp [chunksOf]
      | cons y rest =>
        rw [chunksOf_cons s hs]
        simp only [List.flatten_cons]
        rw [ih ((y :: rest).drop s)
          (by simp only [List.length_drop, List.length_cons]
              simp only [List.length_cons] at h
              omega)]
        exact List.take_append_drop s (y :: rest)
  exact H xs.length xs (Nat.le_refl _)

theorem ceil_step (s N : Nat) (hs : 1 ≤ s) (hN : 1 ≤ N) :
    (N - s + s - 1) / s + 1 = (N + s - 1) / s := by
  by_cases hNs : N ≤ s
  · have h1 : N - s = 0 := by omega
    rw [h1]
    have h2 : 0 + s - 1 = s - 1 := by omega
    rw [h2, Nat.div_eq_of_lt (by omega)]
    have h3 : N + s - 1 = (N - 1) + s := by omega
    rw [h3, Nat.add_div_right _ (by omega : 0 < s), Nat.div_eq_of_lt (by omega)]
  · have h1 : N - s + s - 1 = (N - 1 - s) + s := by omega
    have h3 : N + s - 1 = (N - 1) + s := by omega
    rw [h1, h3, Nat.add_div_right _ (by omega : 0 < s),
      Nat.add_div_right _ (by omega : 0 < s)]
    have h4 : N - 1 = (N - 1 - s) + s := by omega
    have h5 : (N - 1) / s = (N - 1 - s) / s + 1 := by
      conv_lhs => rw [h4]
      rw [Nat.add_div_right _ (by omega : 0 < s)]
    omega

theorem chunksOf_length (s : Nat) (hs : 1 ≤ s) (xs : List Val) :
    (chunksOf s xs).length = (xs.length + s - 1) / s := by
  have H : ∀ (n : Nat) (ys : List Val), ys.length ≤ n →
      (chunksOf s ys).length = (ys.length + s - 1) / s := by
    intro n
    induction n with
    | zero =>
      intro ys h
      have : ys = [] := List.length_eq_zero.mp (by omega)
      subst this
      simp only [chunksOf, List.length_nil, Nat.zero_add]
      rw [Nat.div_eq_of_lt (by omega)]
    | succ n ih =>
      intro ys h
      cases ys with
      | nil =>
        simp only [chunksOf, List.length_nil, Nat.zero_add]
        rw [Nat.div_eq_of_lt (by omega)]
      | cons y rest =>
        rw [chunksOf_cons s (by omega)]
        simp only [List.length_cons]
        rw [ih ((y :: rest).drop s)
          (by simp only [List.length_drop, List.length_cons]
              simp only [List.length_cons] at h
              omega)]
        simp only [List.length_drop, List.length_cons]
        exact ceil_step s (rest.length + 1) (by omega) (by omega)
  exact H xs.length xs (Nat.le_refl _)

theorem chunksOf_mem (s : Nat) (hs : 1 ≤ s) (xs : List Val) :
    ∀ c ∈ chunksOf s xs, c ≠ [] ∧ c.length ≤ s := by
  have H : ∀ (n : Nat) (ys : List Val), ys.length ≤ n →
      ∀ c ∈ chunksOf s ys, c ≠ [] ∧ c.length ≤ s := by
    intro n
    induction n with
    | zero =>
      intro ys h
      have : ys = [] := List.length_eq_zero.mp (by omega)
      subst this
      simp [chunksOf]
    | succ n ih =>
      intro ys h c hc
      cases ys with
      | nil => simp [chunksOf] at hc
      | cons y rest =>
        rw [chunksOf_cons s (by omega)] at hc
        rcases List.mem_cons.mp hc with hc1 | hc2
        · subst hc1
          constructor
          · cases s with
            | zero => omega
            | succ s' => simp [List.take_cons]
          · simp only [List.length_take, List.length_cons]
            omega
        · exact ih ((y :: rest).drop s)
            (by simp only [List.length_drop, List.length_cons]
                simp only [List.length_cons] at h
                omega) c hc2
  exact H xs.length xs (Nat.le_refl _)

theorem chunksOf_eq_nil_iff (s : Nat) (hs : 1 ≤ s) (xs : List Val) :
    chunksOf s xs = [] ↔ xs = [] := by
  cases xs with
  | nil => simp [chunksOf]
  | cons y rest => rw [chunksOf_cons s (by omega)]; simp

theorem chunksOf_dropLast (s : Nat) (hs : 1 ≤ s) (xs : List Val) :
    ∀ c ∈ (chunksOf s xs).dropLast, c.length = s := by
  have H : ∀ (n : Nat) (ys : List Val), ys.length ≤ n →
      ∀ c ∈ (chunksOf s ys).dropLast, c.length = s := by
    intro n
    induction n with
    | zero =>
      intro ys h
      have : ys = [] := List.length_eq_zero.mp (by omega)
      subst this
      simp [chunksOf]
    | succ n ih =>
      intro ys h c hc
      cases ys with
      | nil => simp [chunksOf] at hc
      | cons y rest =>
        rw [chunksOf_cons s (by omega)] at hc
        rcases htl : chunksOf s ((y :: rest).drop s) with _ | ⟨tl0, tls⟩
        · rw [htl] at hc
          simp at hc
        · rw [htl] at hc
          rw [List.dropLast_cons₂] at hc
          rcases List.mem_cons.mp hc with hc1 | hc2
          · subst hc1
            have hdrop : (y :: rest).drop s ≠ [] := by
              intro hd
              rw [hd] at htl
              simp [chunksOf] at htl
            have hlen : s < (y :: rest).length := by
              by_contra hlen
              exact hdrop (List.drop_eq_nil_of_le (by omega))
            simp only [List.length_take, List.length_cons]
            simp only [List.length_cons] at hlen
            omega
          · rw [← htl] at hc2
            exact ih ((y :: rest).drop s)
              (by simp only [List.length_drop, List.length_cons]
                  simp only [List.length_cons] at h
                  omega) c hc2
  exact H xs.length xs (Nat.le_refl _)

theorem chunksOf_all (s : Nat) (hs : 1 ≤ s) (xs : List Val) (hne : xs ≠ [])
    (hlen : xs.length ≤ s) : chunksOf s xs = [xs] := by
  cases xs with
  | nil => exact absurd rfl hne
  | cons y rest =>
    rw [chunksOf_cons s (by omega)]
    rw [List.take_of_length_le hlen, List.drop_eq_nil_of_le hlen]
    simp [chunksOf]

/-- C6: for every positive size, `batch(size)` emits the `size`-chunks of
the input, in order: the concatenation of the groups is the input, every
group is non-empty with length at most `size`, every group but the last has
length exactly `size`, the `batches` counter equals the number of groups,
which is `ceil(N / size)`; an empty input gives no groups, and a non-empty
input of at most `size` items gives exactly one group holding the whole
input. -/
theorem C6_batch_partitions (s : Nat) (hs : 1 ≤ s) (xs : List Val) (t : Nat) :
    runWith (pipe xs |>.batch (s : Int)) t =
      .ok ((chunksOf s xs).map Val.list,
        ⟨xs.length, (chunksOf s xs).length, 0, (chunksOf s xs).length, 0, t⟩) ∧
    (chunksOf s xs).length = (xs.length + s - 1) / s ∧
    (chunksOf s xs).flatten = xs ∧
    (∀ c ∈ chunksOf s xs, c ≠ [] ∧ c.length ≤ s) ∧
    (∀ c ∈ (chunksOf s xs).dropLast, c.length = s) ∧
    (xs = [] → chunksOf s xs = []) ∧
    (xs ≠ [] → xs.length ≤ s → chunksOf s xs = [xs]) := by
  refine ⟨?_, chunksOf_length s hs xs, chunksOf_join s (by omega) xs,
    chunksOf_mem s hs xs, chunksOf_dropLast s hs xs,
    (fun hx => by subst hx; simp [chunksOf]),
    chunksOf_all s hs xs⟩
  have hp : (pipe xs |>.batch (s : Int)) = (⟨xs, [Op.batch (s : Int)]⟩ : Pipe) := rfl
  rw [hp]
  have hc : opRun (Op.batch (s : Int)) none xs none =
      ⟨(chunksOf s xs).map Val.list, xs.length, true, 0,
       (chunksOf s xs).length, 0, none⟩ := by
    simp only [opRun]
    have := batchRun_pos s hs xs [] (by simp only [List.length_nil]; omega)
    simpa using this
  rw [runWith_single_ok _ _ _ (by rw [hc])]
  rw [hc]
  simp [minB]

/-- Witness for C6: `batch(3)` over a seven-item source. -/
theorem C6_witness :
    (1 : Nat) ≤ 3 ∧
    runWith (pipe [iv 0, iv 1, iv 2, iv 3, iv 4, iv 5, iv 6] |>.batch ((3 : Nat) : Int)) 0 =
      .ok ([Val.list [iv 0, iv 1, iv 2], Val.list [iv 3, iv 4, iv 5], Val.list [iv 6]],
        ⟨7, 3, 0, 3, 0, 0⟩) := by
  refine ⟨by omega, ?_⟩
  rw [(C6_batch_partitions 3 (by omega)
    [iv 0, iv 1, iv 2, iv 3, iv 4, iv 5, iv 6] 0).1]
  simp [chunksOf]

/-- C3: the code performs no validation of the batch size.  `batch(0)` over
`[1, 2, 3]` raises nothing at construction or first run and emits the whole
input as a single group with `batches = 1` — it silently produces output
instead of failing fast as the specification requires. -/
theorem C3_batch_zero_no_error :
    runWith (pipe [iv 1, iv 2, iv 3] |>.batch 0) 0 =
      .ok ([Val.list [iv 1, iv 2, iv 3]], ⟨3, 1, 0, 1, 0, 0⟩) := rfl

/-- C10: with a non-positive size, `batch` raises no error: the buffer length
(at least 1 after each append) never equals the size, so no group is emitted
mid-stream; at exhaustion a non-empty input is emitted as one single group
with `batches = 1`, and an empty input emits nothing with `batches = 0`. -/
theorem C10_batch_nonpos (size : Int) (hsize : size ≤ 0) (xs : List Val)
    (t : Nat) :
    runWith (pipe xs |>.batch size) t =
      .ok ((if xs.isEmpty then [] else [Val.list xs]),
        ⟨xs.length, (if xs.isEmpty then 0 else 1), 0,
         (if xs.isEmpty then 0 else 1), 0, t⟩) := by
  have hp : (pipe xs |>.batch size) = (⟨xs, [Op.batch size]⟩ : Pipe) := rfl
  rw [hp]
  have hc : opRun (Op.batch size) none xs none =
      ⟨(if xs.isEmpty then [] else [Val.list xs]), xs.length, true, 0,
       (if xs.isEmpty then 0 else 1), 0, none⟩ := by
    simp only [opRun]
    have := batchRun_nonpos size hsize xs []
    simpa using this
  rw [runWith_single_ok _ _ _ (by rw [hc])]
  rw [hc]
  by_cases hx : xs.isEmpty
  · simp [hx, minB]
  · simp [hx, minB]

/-- Witness for C10: `batch(-2)` over a two-item source emits one group with
everything and raises nothing. -/
theorem C10_witness :
    (-2 : Int) ≤ 0 ∧
    runWith (pipe [iv 5, iv 6] |>.batch (-2)) 0 =
      .ok ([Val.list [iv 5, iv 6]], ⟨2, 1, 0, 1, 0, 0⟩) :=
  ⟨by omega, C10_batch_nonpos (-2) (by omega) [iv 5, iv 6] 0⟩

-- Characterization of `dedupe` without a bound, and the retry loop.

theorem firstOcc_length_le (k : Val → Val) (seen : List Val) (xs : List Val) :
    (firstOcc k seen xs).length ≤ xs.length := by
  induction xs generalizing seen with
  | nil => simp [firstOcc]
  | cons x rest ih =>
    simp only [firstOcc]
    split
    · exact Nat.le_trans (ih seen) (by simp)
    · simp only [List.length_cons]
      exact Nat.succ_le_succ (ih _)

/-- Unbounded `dedupe` emits exactly the first occurrence of each distinct
key value, in first-seen order, and drops one item per suppressed
duplicate. -/
theorem dedupeRun_unbounded (key : Option (Val → Val)) (xs : List Val) :
    ∀ (seen : List Val),
      genRun (dedupeStep key none) flushNone none xs seen none =
        ⟨firstOcc (keyOf key) seen xs, xs.length, true,
         xs.length - (firstOcc (keyOf key) seen xs).length, 0, 0, none⟩ := by
  induction xs with
  | nil =>
    intro seen
    simp [genRun, bFrozen, takeB, flushNone, firstOcc]
  | cons x rest ih =>
    intro seen
    simp only [genRun, bFrozen_none, Bool.false_eq_true, if_false, dedupeStep]
    by_cases hmem : seen.contains (keyOf key x)
    · rw [if_pos hmem]
      simp only [bSub, bFrozen_none, Bool.false_eq_true, if_false]
      rw [ih seen]
      have hlen := firstOcc_length_le (keyOf key) seen rest
      simp only [firstOcc, hmem, if_true, takeB, List.nil_append,
        List.length_cons, Nat.add_zero, Nat.zero_add]
      have hd : rest.length + 1 - (firstOcc (keyOf key) seen rest).length
          = 1 + (rest.length - (firstOcc (keyOf key) seen rest).length) := by
        omega
      rw [hd]
    · rw [if_neg hmem]
      simp only [bSub, bFrozen_none, Bool.false_eq_true, if_false]
      rw [ih (seen ++ [keyOf key x])]
      have hlen := firstOcc_length_le (keyOf key) (seen ++ [keyOf key x]) rest
      simp only [firstOcc, hmem, if_false, Bool.false_eq_true, takeB,
        List.singleton_append, List.length_cons, Nat.add_zero, Nat.zero_add]
      have hd : rest.length + 1 -
            ((firstOcc (keyOf key) (seen ++ [keyOf key x]) rest).length + 1)
          = rest.length -
            (firstOcc (keyOf key) (seen ++ [keyOf key x]) rest).length := by
        omega
      rw [hd]

/-- C4: `dedupe` with no `max_size` emits exactly the first occurrence of
each distinct key value in first-seen order and increments `dropped` once per
suppressed duplicate; in particular `[3,1,2,1,3]` yields `[3,1,2]` with
`dropped = 2`.  With `max_size = 2`, the least-recently-inserted key is
evicted once the seen set exceeds the bound, so a key that scrolled out is
re-emitted: `[1,2,3,1]` yields `[1,2,3,1]` with `dropped = 0`. -/
theorem C4_dedupe (key : Option (Val → Val)) (xs : List Val) (t : Nat) :
    runWith (pipe xs |>.dedupe key none) t =
      .ok (firstOcc (keyOf key) [] xs,
        ⟨xs.length, (firstOcc (keyOf key) [] xs).length,
         xs.length - (firstOcc (keyOf key) [] xs).length, 0, 0, t⟩) ∧
    runWith (pipe [iv 3, iv 1, iv 2, iv 1, iv 3] |>.dedupe none none) 0 =
      .ok ([iv 3, iv 1, iv 2], ⟨5, 3, 2, 0, 0, 0⟩) ∧
    runWith (pipe [iv 1, iv 2, iv 3, iv 1] |>.dedupe none (some 2)) 0 =
      .ok ([iv 1, iv 2, iv 3, iv 1], ⟨4, 4, 0, 0, 0, 0⟩) := by
  refine ⟨?_, rfl, rfl⟩
  have hp : (pipe xs |>.dedupe key none) =
      (⟨xs, [Op.dedupe key none]⟩ : Pipe) := rfl
  rw [hp]
  have hc : opRun (Op.dedupe key none) none xs none =
      ⟨firstOcc (keyOf key) [] xs, xs.length, true,
       xs.length - (firstOcc (keyOf key) [] xs).length, 0, 0, none⟩ := by
    simp only [opRun]
    exact dedupeRun_unbounded key xs []
  rw [runWith_single_ok _ _ _ (by rw [hc])]
  rw [hc]
  simp [minB]

/-- The retry loop succeeds at attempt `a + k` after `k` matching failures:
it returns the successful value and counts `k` errors. -/
theorem retryAttempt_ok (g : Nat → Except Err Val) (exc : Err → Bool) :
    ∀ (k a rem : Nat) (v : Val), k ≤ rem →
      (∀ i, i < k → isMatchFail (g (a + i)) exc = true) →
      g (a + k) = .ok v →
      retryAttempt g exc a rem = (.ok v, k) := by
  intro k
  induction k with
  | zero =>
    intro a rem v _ _ hk
    rw [retryAttempt, show g a = .ok v from by simpa using hk]
  | succ k ih =>
    intro a rem v hle hfail hk
    have h0 : isMatchFail (g a) exc = true := by simpa using hfail 0 (by omega)
    rcases hg : g a with e0 | v0
    · have hexc : exc e0 = true := by
        rw [hg] at h0; simpa [isMatchFail] using h0
      cases rem with
      | zero => omega
      | succ rem' =>
        rw [retryAttempt]
        simp only [hg, hexc, if_true]
        rw [ih (a + 1) rem' v (by omega)
          (fun i hi => by
            have := hfail (i + 1) (by omega)
            have hrw : a + (i + 1) = a + 1 + i := by omega
            rw [hrw] at this
            exact this)
          (by
            have hrw : a + (k + 1) = a + 1 + k := by omega
            rw [hrw] at hk
            exact hk)]
    · rw [hg] at h0; simp [isMatchFail] at h0

/-- The retry loop that fails (with matching exceptions) on every one of its
`rem + 1` attempts returns the last failure after counting every failure. -/
theorem retryAttempt_fail (g : Nat → Except Err Val) (exc : Err → Bool) :
    ∀ (rem a : Nat) (e : Err),
      (∀ i, i < rem → isMatchFail (g (a + i)) exc = true) →
      g (a + rem) = .error e → exc e = true →
      retryAttempt g exc a rem = (.error e, rem + 1) := by
  intro rem
  induction rem with
  | zero =>
    intro a e _ hk hexc
    rw [retryAttempt, show g a = .error e from by simpa using hk]
    simp [hexc]
  | succ rem ih =>
    intro a e hfail hk hexc
    have h0 : isMatchFail (g a) exc = true := by simpa using hfail 0 (by omega)
    rcases hg : g a with e0 | v0
    · have hexc0 : exc e0 = true := by
        rw [hg] at h0; simpa [isMatchFail] using h0
      rw [retryAttempt]
      simp only [hg, hexc0, if_true]
      rw [ih (a + 1) e
        (fun i hi => by
          have := hfail (i + 1) (by omega)
          have hrw : a + (i + 1) = a + 1 + i := by omega
          rw [hrw] at this
          exact this)
        (by
          have hrw : a + (rem + 1) = a + 1 + rem := by omega
          rw [hrw] at hk
          exact hk) hexc]
    · rw [hg] at h0; simp [isMatchFail] at h0

/-- C5: `retry_map(f, retries = r)` calls `f` on an item at most `r + 1`
times.  If the k-th attempt (`k ≤ r`) succeeds after `k` matching failures,
the successful result is emitted, `errors` is incremented once per failed
attempt, and processing proceeds to the next input item; if all `r + 1`
attempts fail with matching exceptions, the last failure is re-raised and
propagates out of `run`, aborting execution (no statistics record). -/
theorem C5_retry (f : Val → Nat → Except Err Val) (r : Nat) (bo : Nat)
    (exc : Err → Bool) (x : Val) (t : Nat) :
    (∀ k v, k ≤ r → (∀ i, i < k → isMatchFail (f x i) exc = true) →
      f x k = .ok v →
      runWith (pipe [x] |>.retry_map f r bo exc) t =
        .ok ([v], ⟨1, 1, 0, 0, k, t⟩)) ∧
    (∀ e, (∀ i, i < r → isMatchFail (f x i) exc = true) →
      f x r = .error e → exc e = true →
      runWith (pipe [x] |>.retry_map f r bo exc) t = .error e) ∧
    (∀ y w k v, k ≤ r → (∀ i, i < k → isMatchFail (f x i) exc = true) →
      f x k = .ok v → f y 0 = .ok w →
      runWith (pipe [x, y] |>.retry_map f r bo exc) t =
        .ok ([v, w], ⟨2, 2, 0, 0, k, t⟩)) := by
  refine ⟨?_, ?_, ?_⟩
  · intro k v hk hfail hok
    have hra : retryAttempt (f x) exc 0 r = (.ok v, k) :=
      retryAttempt_ok (f x) exc k 0 r v hk
        (fun i hi => by simpa using hfail i hi) (by simpa using hok)
    have hp : (pipe [x] |>.retry_map f r bo exc) =
        (⟨[x], [Op.retryMap f r bo exc]⟩ : Pipe) := rfl
    rw [hp]
    have hc : opRun (Op.retryMap f r bo exc) none [x] none =
        ⟨[v], 1, true, 0, 0, k, none⟩ := by
      simp [opRun, genRun, retryStep, hra, bFrozen, bSub, takeB, flushNone]
    rw [runWith_single_ok _ _ _ (by rw [hc])]
    rw [hc]
    simp [minB]
  · intro e hfail hk hexc
    have hra : retryAttempt (f x) exc 0 r = (.error e, r + 1) :=
      retryAttempt_fail (f x) exc r 0 e
        (fun i hi => by simpa using hfail i hi) (by simpa using hk) hexc
    have hp : (pipe [x] |>.retry_map f r bo exc) =
        (⟨[x], [Op.retryMap f r bo exc]⟩ : Pipe) := rfl
    rw [hp]
    have hc : opRun (Op.retryMap f r bo exc) none [x] none =
        ⟨[], 1, false, 0, 0, r + 1, some e⟩ := by
      simp [opRun, genRun, retryStep, hra, bFrozen, bSub, takeB, flushNone]
    exact runWith_single_err _ _ _ _ (by rw [hc])
  · intro y w k v hk hfail hok hoky
    have hra : retryAttempt (f x) exc 0 r = (.ok v, k) :=
      retryAttempt_ok (f x) exc k 0 r v hk
        (fun i hi => by simpa using hfail i hi) (by simpa using hok)
    have hray : retryAttempt (f y) exc 0 r = (.ok w, 0) :=
      retryAttempt_ok (f y) exc 0 0 r w (by omega)
        (fun i hi => by omega) (by simpa using hoky)
    have hp : (pipe [x, y] |>.retry_map f r bo exc) =
        (⟨[x, y], [Op.retryMap f r bo exc]⟩ : Pipe) := rfl
    rw [hp]
    have hc : opRun (Op.retryMap f r bo exc) none [x, y] none =
        ⟨[v, w], 2, true, 0, 0, k, none⟩ := by
      simp [opRun, genRun, retryStep, hra, hray, bFrozen, bSub, takeB, flushNone]
    rw [runWith_single_ok _ _ _ (by rw [hc])]
    rw [hc]
    simp [minB]

/-- Witness for C5: a function failing twice with a matching exception and
succeeding on the third attempt emits the success with `errors = 2` under
`retries = 3`. -/
theorem C5_witness :
    runWith (pipe [iv 5] |>.retry_map
      (fun _ i => if i < 2 then .error 3 else .ok (iv 7)) 3 0 (fun _ => true)) 0 =
      .ok ([iv 7], ⟨1, 1, 0, 0, 2, 0⟩) :=
  (C5_retry (fun _ i => if i < 2 then .error 3 else .ok (iv 7)) 3 0
    (fun _ => true) (iv 5) 0).1 2 (iv 7) (by omega)
    (fun i hi => by interval_cases i <;> rfl) rfl

end SimplyPipe
